import Mathlib

/-!
Shallow embedding of the SBC encoder core from crates/sbc-encoder
(config.rs, tables.rs, bitalloc.rs, quantizer.rs, analysis.rs, frame.rs,
lib.rs), followed by theorems settling the specification claims.

Conventions: Rust `u8`/`usize` values are modelled as `Nat`; `i32`/`i64`
values as `Int`.  Rust `/` on signed integers is truncating division,
modelled by `Int.tdiv`; Rust `>>` on signed integers is an arithmetic
shift, modelled by `>>>` on `Int` (which floors).  A Rust `assert!` is
modelled by returning `none` from an `Option`-valued function.
Matrices are modelled as total functions, updated pointwise exactly where
the Rust loops write them.
-/

set_option maxRecDepth 10000

namespace SBC

/-- Sampling frequency options (config.rs). -/
inductive SamplingFrequency where
  | freq16000
  | freq32000
  | freq44100
  | freq48000
deriving DecidableEq, Repr

/-- The 2-bit header field value of a sampling frequency (its `repr(u8)` discriminant). -/
def SamplingFrequency.header_bits : SamplingFrequency → Nat
  | .freq16000 => 0
  | .freq32000 => 1
  | .freq44100 => 2
  | .freq48000 => 3

/-- Frequency in Hz (config.rs `hz`). -/
def SamplingFrequency.hz : SamplingFrequency → Nat
  | .freq16000 => 16000
  | .freq32000 => 32000
  | .freq44100 => 44100
  | .freq48000 => 48000

/-- Channel mode options (config.rs). -/
inductive ChannelMode where
  | mono
  | dualChannel
  | stereo
  | jointStereo
deriving DecidableEq, Repr

/-- Number of audio channels of a channel mode. -/
def ChannelMode.channels : ChannelMode → Nat
  | .mono => 1
  | .dualChannel => 2
  | .stereo => 2
  | .jointStereo => 2

/-- The 2-bit header field value of a channel mode. -/
def ChannelMode.header_bits : ChannelMode → Nat
  | .mono => 0
  | .dualChannel => 1
  | .stereo => 2
  | .jointStereo => 3

/-- Block length options (config.rs). -/
inductive BlockLength where
  | blocks4
  | blocks8
  | blocks12
  | blocks16
deriving DecidableEq, Repr

/-- Number of blocks per frame. -/
def BlockLength.count : BlockLength → Nat
  | .blocks4 => 4
  | .blocks8 => 8
  | .blocks12 => 12
  | .blocks16 => 16

/-- The 2-bit header field value of a block length. -/
def BlockLength.header_bits : BlockLength → Nat
  | .blocks4 => 0
  | .blocks8 => 1
  | .blocks12 => 2
  | .blocks16 => 3

/-- Number-of-subbands options (config.rs). -/
inductive Subbands where
  | sub4
  | sub8
deriving DecidableEq, Repr

/-- Number of subbands. -/
def Subbands.count : Subbands → Nat
  | .sub4 => 4
  | .sub8 => 8

/-- The 1-bit header field value of a subbands choice. -/
def Subbands.header_bits : Subbands → Nat
  | .sub4 => 0
  | .sub8 => 1

/-- Bit allocation method (config.rs). -/
inductive AllocationMethod where
  | snr
  | loudness
deriving DecidableEq, Repr

/-- The 1-bit header field value of an allocation method. -/
def AllocationMethod.header_bits : AllocationMethod → Nat
  | .snr => 0
  | .loudness => 1

/-- SBC encoder configuration (config.rs `SbcConfig`). -/
structure SbcConfig where
  sampling_frequency : SamplingFrequency
  channel_mode : ChannelMode
  block_length : BlockLength
  subbands : Subbands
  allocation_method : AllocationMethod
  bitpool : Nat
deriving DecidableEq, Repr

/-- Maximum allowed bitpool for a configuration (config.rs `max_bitpool`). -/
def SbcConfig.max_bitpool (c : SbcConfig) : Nat :=
  match c.channel_mode with
  | .mono | .dualChannel =>
      let computed := 16 * c.subbands.count
      if computed > 250 then 250 else computed
  | .stereo | .jointStereo =>
      let computed := 32 * c.subbands.count
      if computed > 250 then 250 else computed

/-- Configuration validity check (config.rs `is_valid`). -/
def SbcConfig.is_valid (c : SbcConfig) : Bool :=
  if c.bitpool < 2 then false
  else if c.bitpool > c.max_bitpool then false
  else true

/-- Number of channels of a configuration. -/
def SbcConfig.channels (c : SbcConfig) : Nat := c.channel_mode.channels

/-- Samples per frame per channel (config.rs `samples_per_frame`). -/
def SbcConfig.samples_per_frame (c : SbcConfig) : Nat :=
  c.block_length.count * c.subbands.count

/-- Frame size in bytes (config.rs `frame_size`). -/
def SbcConfig.frame_size (c : SbcConfig) : Nat :=
  let subbands := c.subbands.count
  let blocks := c.block_length.count
  let channels := c.channels
  let bitpool := c.bitpool
  let header := 4
  let scale_factors :=
    match c.channel_mode with
    | .jointStereo => (subbands + 2 * subbands * 4) / 8 + 1
    | _ => (channels * subbands * 4) / 8
  let audio_bits :=
    match c.channel_mode with
    | .mono | .dualChannel => channels * blocks * bitpool
    | .stereo => blocks * bitpool
    | .jointStereo => blocks * bitpool
  let audio := (audio_bits + 7) / 8
  header + scale_factors + audio

/-- Maximum size of an encoded SBC frame in bytes (lib.rs `MAX_SBC_FRAME_SIZE`). -/
def MAX_SBC_FRAME_SIZE : Nat := 512

/-- Loudness offset table for 8 subbands, indexed `[freq_index][subband]` (tables.rs). -/
def LOUDNESS_OFFSET_8 : List (List Int) :=
  [[-1, 0, 0, 0, 0, 0, 0, 1],
   [-2, 0, 0, 0, 0, 0, 1, 2],
   [-2, 0, 0, 0, 0, 0, 1, 2],
   [-2, 0, 0, 0, 0, 0, 1, 2]]

/-- Loudness offset table for 4 subbands (tables.rs). -/
def LOUDNESS_OFFSET_4 : List (List Int) :=
  [[-1, 0, 0, 1],
   [-2, 0, 0, 2],
   [-2, 0, 0, 2],
   [-2, 0, 0, 2]]

/-- Power-of-two levels table, `2^(scale_factor+1)` (tables.rs `SCALE_FACTOR_LEVELS`). -/
def SCALE_FACTOR_LEVELS : List Int :=
  [2, 4, 8, 16, 32, 64, 128, 256, 512, 1024, 2048, 4096, 8192, 16384, 32768, 65536]

/-- A `[channel][subband]` matrix of bit counts, total function on index pairs. -/
abbrev BitMat := Nat × Nat → Nat

/-- A `[channel][subband]` matrix of bit-need values (`i32` in the source). -/
abbrev NeedMat := Nat × Nat → Int

/-- A `[channel][subband]` matrix of scale factors (`u8` in the source). -/
abbrev SfMat := Nat × Nat → Nat

/-- The channel-major list of active cells traversed by the Rust
`for ch { for sb }` loops. -/
def cellList (nch nsb : Nat) : List (Nat × Nat) :=
  (List.range nch).flatMap fun ch => (List.range nsb).map fun sb => (ch, sb)

/-- Total bits over the active cells of a configuration. -/
def totalBits (nch nsb : Nat) (bits : BitMat) : Nat :=
  ((cellList nch nsb).map bits).sum

/-- Bits consumed at one slice level by one cell, as counted by the first
loop of a slice iteration in `distribute_bits` (bitalloc.rs lines 155-167). -/
def sliceGrant (bitneed : NeedMat) (bits : BitMat) (bs : Int) (p : Nat × Nat) : Nat :=
  if bitneed p = bs + 1 then 2
  else if bitneed p > bs ∧ bits p > 0 then 1
  else 0

/-- Bits consumed at one slice level over all cells (`bits_used`). -/
def countUsed (bitneed : NeedMat) (bits : BitMat) (bs : Int) (cells : List (Nat × Nat)) : Nat :=
  cells.foldl (fun acc p => acc + sliceGrant bitneed bits bs p) 0

/-- One cell of the apply loop of a slice iteration (bitalloc.rs lines 171-180). -/
def applySliceStep (bitneed : NeedMat) (bs : Int) (m : BitMat) (p : Nat × Nat) : BitMat :=
  if bitneed p = bs + 1 then Function.update m p 2
  else if bitneed p > bs ∧ m p > 0 then Function.update m p (m p + 1)
  else m

/-- The apply loop of a slice iteration over all cells. -/
def applySlice (bitneed : NeedMat) (bs : Int) (cells : List (Nat × Nat)) (m : BitMat) : BitMat :=
  cells.foldl (applySliceStep bitneed bs) m

/-- First pass of `distribute_bits`: the descending bit-slice loop
(bitalloc.rs lines 146-183), fuelled by `MAX_ITERATIONS = 64`.
State is `(bits, bitslice, remaining_bits)`. -/
def slicePass (bitneed : NeedMat) (cells : List (Nat × Nat)) :
    Nat → BitMat × Int × Int → BitMat × Int × Int
  | 0, st => st
  | fuel + 1, (m, bitslice, remaining) =>
    if bitslice ≤ 0 ∨ remaining ≤ 0 then (m, bitslice, remaining)
    else
      let bs := bitslice - 1
      let used := countUsed bitneed m bs cells
      if (used : Int) ≤ remaining then
        slicePass bitneed cells fuel (applySlice bitneed bs cells m, bs, remaining - used)
      else
        slicePass bitneed cells fuel (m, bs, remaining)

/-- One cell of the second distribution pass (bitalloc.rs lines 196-219).
State is `(bits, remaining_bits, allocated)`. -/
def secondStep (bitneed : NeedMat) (st : BitMat × Int × Bool) (p : Nat × Nat) :
    BitMat × Int × Bool :=
  let (m, rem, _alloc) := st
  if rem ≤ 0 then st
  else if m p < 16 ∧ bitneed p > 0 then
    if m p = 0 then
      if rem ≥ 2 then (Function.update m p 2, rem - 2, true) else st
    else (Function.update m p (m p + 1), rem - 1, true)
  else st

/-- Second pass of `distribute_bits` (bitalloc.rs lines 188-224), fuelled by
`MAX_REMAINING_ITERATIONS = 256`. -/
def secondPass (bitneed : NeedMat) (cells : List (Nat × Nat)) :
    Nat → BitMat × Int → BitMat × Int
  | 0, st => st
  | fuel + 1, (m, rem) =>
    if rem ≤ 0 then (m, rem)
    else
      let (m2, rem2, alloc) := cells.foldl (secondStep bitneed) (m, rem, false)
      if alloc then secondPass bitneed cells fuel (m2, rem2) else (m2, rem2)

/-- Joint-stereo adjustment: joined subbands share the maximum of the two
channel allocations (bitalloc.rs lines 227-237). -/
def jointAdjust (cfg : SbcConfig) (join_flags : Nat) (m : BitMat) : BitMat :=
  if cfg.channel_mode = ChannelMode.jointStereo ∧ cfg.channels = 2 then
    (List.range cfg.subbands.count).foldl
      (fun m sb =>
        if (join_flags >>> (cfg.subbands.count - 1 - sb)) &&& 1 = 1 then
          let max_bits := max (m (0, sb)) (m (1, sb))
          Function.update (Function.update m (0, sb) max_bits) (1, sb) max_bits
        else m) m
  else m

/-- Core distribution algorithm (bitalloc.rs `distribute_bits`). -/
def distribute_bits (bitneed : NeedMat) (cfg : SbcConfig) (join_flags : Nat) : BitMat :=
  let nsb := cfg.subbands.count
  let nch := cfg.channels
  let cells := cellList nch nsb
  let bitpool : Int := cfg.bitpool
  let max_bitneed :=
    cells.foldl (fun acc p => if bitneed p > acc then bitneed p else acc) (-2147483648)
  let st1 := slicePass bitneed cells 64 ((fun _ => 0), max_bitneed + 1, bitpool)
  let st2 := secondPass bitneed cells 256 (st1.1, st1.2.2)
  jointAdjust cfg join_flags st2.1

/-- SNR bit-need derivation (bitalloc.rs `allocate_snr`): bitneed equals the
scale factor on active cells, 0 elsewhere (the Rust matrix is zero-initialised). -/
def snrBitneed (sfs : SfMat) (cfg : SbcConfig) : NeedMat := fun p =>
  if p.1 < cfg.channels ∧ p.2 < cfg.subbands.count then (sfs p : Int) else 0

/-- Loudness bit-need derivation (bitalloc.rs `allocate_loudness`). -/
def loudnessBitneed (sfs : SfMat) (cfg : SbcConfig) : NeedMat := fun p =>
  if p.1 < cfg.channels ∧ p.2 < cfg.subbands.count then
    let sf : Int := sfs p
    if sf = 0 then -5
    else
      let offset :=
        if cfg.subbands.count = 8 then
          ((LOUDNESS_OFFSET_8.getD cfg.sampling_frequency.header_bits []).getD p.2 0)
        else
          ((LOUDNESS_OFFSET_4.getD cfg.sampling_frequency.header_bits []).getD p.2 0)
      if sf > offset then sf - offset
      else Int.tdiv (sf - offset) 2
  else 0

/-- Bit allocation entry point (bitalloc.rs `BitAllocator::allocate`). -/
def allocate (sfs : SfMat) (cfg : SbcConfig) (join_flags : Nat) : BitMat :=
  match cfg.allocation_method with
  | .snr => distribute_bits (snrBitneed sfs cfg) cfg join_flags
  | .loudness => distribute_bits (loudnessBitneed sfs cfg) cfg join_flags

/-- A `[channel][block][subband]` matrix of subband samples (`i32` in the
source), as a total function. -/
abbrev SubMat := Nat → Nat → Nat → Int

/-- A `[channel][block][subband]` matrix of quantized codes (`u16`). -/
abbrev QMat := Nat → Nat → Nat → Nat

/-- Bit length of a `u32` value: the position of its highest set bit plus
one, 0 for 0.  A scan over the 32 bit positions. -/
def u32_bit_length (v : Nat) : Nat :=
  (List.range 32).foldl (fun acc i => if v >>> i ≥ 1 then i + 1 else acc) 0

/-- Leading zeros of a `u32` value (`u32::leading_zeros`), valid for
values below `2^32`. -/
def u32_leading_zeros (v : Nat) : Nat :=
  32 - u32_bit_length v

/-- Scale factor for a single maximum magnitude (quantizer.rs
`calc_single_scale_factor`; the argument is the `i32` absolute value). -/
def calc_single_scale_factor (max_val : Nat) : Nat :=
  if max_val = 0 then 0
  else
    let bits_needed := 32 - u32_leading_zeros max_val
    let sf := if bits_needed > 1 then bits_needed - 1 else 0
    if sf > 15 then 15 else sf

/-- Maximum absolute sample value of one channel/subband over the active
blocks (the inner loop of quantizer.rs `calc_scale_factors`). -/
def maxAbsInSubband (subbands : SubMat) (ch sb nblk : Nat) : Nat :=
  (List.range nblk).foldl
    (fun max_val blk =>
      let abs_val := (subbands ch blk sb).natAbs
      if abs_val > max_val then abs_val else max_val) 0

/-- Scale factors for all subbands (quantizer.rs `calc_scale_factors`);
inactive cells keep the zero initialisation of the Rust matrix. -/
def calc_scale_factors (subbands : SubMat) (cfg : SbcConfig) : SfMat := fun p =>
  if p.1 < cfg.channels ∧ p.2 < cfg.subbands.count then
    calc_single_scale_factor (maxAbsInSubband subbands p.1 p.2 cfg.block_length.count)
  else 0

/-- The correlation accumulators of `should_use_joint` (quantizer.rs lines
171-183): `(sum_product, sum_left_sq, sum_right_sq)` over the active
blocks of one subband.  The accumulators are mathematical integers; the
Rust `i64` sums do not overflow for the sample magnitudes considered in
the theorems below. -/
def joint_sums (subbands : SubMat) (sb nblk : Nat) : Int × Int × Int :=
  (List.range nblk).foldl
    (fun (acc : Int × Int × Int) blk =>
      (acc.1 + subbands 0 blk sb * subbands 1 blk sb,
       acc.2.1 + subbands 0 blk sb * subbands 0 blk sb,
       acc.2.2 + subbands 1 blk sb * subbands 1 blk sb))
    (0, 0, 0)

/-- Joint-stereo decision for one subband (quantizer.rs `should_use_joint`):
reject a scale-factor gap above 4 or a silent channel, then compare the
squared quarter-scaled correlation against the quarter-scaled energy
product. -/
def should_use_joint (subbands : SubMat) (sb nblk : Nat) (left_sf right_sf : Nat) : Bool :=
  if (if left_sf > right_sf then left_sf - right_sf else right_sf - left_sf) > 4 then
    false
  else
    if (joint_sums subbands sb nblk).2.1 = 0 ∨ (joint_sums subbands sb nblk).2.2 = 0 then
      false
    else
      decide (((joint_sums subbands sb nblk).1 >>> 2) *
          ((joint_sums subbands sb nblk).1 >>> 2) ≥
        ((joint_sums subbands sb nblk).2.1 >>> 2) *
          ((joint_sums subbands sb nblk).2.2 >>> 2))

/-- The body of the joint-stereo loop for one subband index: decide, and on
success rewrite the subband's column to mid/side and set the flag bit
(quantizer.rs `joint_stereo_process` lines 119-145).  The Rust in-place
block loop is modelled by a pointwise function update of the column. -/
def jointStep (sfs : SfMat) (nsb nblk : Nat) (st : SubMat × Nat) (sb : Nat) : SubMat × Nat :=
  let (mat, flags) := st
  if should_use_joint mat sb nblk (sfs (0, sb)) (sfs (1, sb)) then
    let mat2 : SubMat := fun c b s =>
      if s = sb ∧ b < nblk then
        if c = 0 then (mat 0 b sb + mat 1 b sb) >>> 1
        else if c = 1 then (mat 0 b sb - mat 1 b sb) >>> 1
        else mat c b s
      else mat c b s
    (mat2, flags ||| (1 <<< (nsb - 1 - sb)))
  else st

/-- Joint stereo processing (quantizer.rs `joint_stereo_process`). -/
def joint_stereo_process (subbands : SubMat) (sfs : SfMat) (cfg : SbcConfig) :
    SubMat × Nat :=
  if cfg.channel_mode ≠ ChannelMode.jointStereo then (subbands, 0)
  else
    let nsb := cfg.subbands.count
    let nblk := cfg.block_length.count
    let join_limit := if nsb = 8 then nsb - 1 else nsb
    (List.range join_limit).foldl (jointStep sfs nsb nblk) (subbands, 0)

/-- Quantize a single sample (quantizer.rs `quantize_sample`); `none`
models a failing `assert!`. -/
def quantize_sample (sample : Int) (bits : Nat) (scale_level : Int) : Option Nat :=
  if ¬(bits > 0 ∧ bits ≤ 16) then none
  else if ¬(scale_level > 0) then none
  else
    let levels : Int := 2 ^ bits - 1
    let normalized := Int.tdiv (sample * 2 ^ 15) scale_level
    let offset := normalized + 32768
    let quantized := (offset * levels) >>> 16
    some (if quantized < 0 then 0
          else if quantized > levels then levels.toNat
          else quantized.toNat)

/-- Pointwise update of a quantized-sample matrix. -/
def updQ (q : QMat) (ch blk sb : Nat) (v : Nat) : QMat := fun c b s =>
  if c = ch ∧ b = blk ∧ s = sb then v else q c b s

/-- Quantize all subband samples (quantizer.rs `quantize`); `none` models a
panic (failed assert or out-of-range `SCALE_FACTOR_LEVELS` index). -/
def quantize (subbands : SubMat) (bits : BitMat) (sfs : SfMat) (cfg : SbcConfig) :
    Option QMat :=
  let nblk := cfg.block_length.count
  (cellList cfg.channels cfg.subbands.count).foldlM
    (fun q p =>
      let bit_count := bits p
      if bit_count = 0 then some q
      else
        let sf := sfs p
        if sf < 16 then
          let levels := SCALE_FACTOR_LEVELS.getD sf 0
          (List.range nblk).foldlM
            (fun q blk =>
              (quantize_sample (subbands p.1 blk p.2) bit_count levels).map
                (updQ q p.1 blk p.2))
            q
        else none)
    (fun _ _ _ => 0)

/-- Filter history depth per subband (analysis.rs `FILTER_DEPTH`). -/
def FILTER_DEPTH : Nat := 10

/-- Analysis filter state (analysis.rs `AnalysisFilter`): one history list
of `MAX_SUBBANDS * FILTER_DEPTH = 80` entries per channel, plus the
(otherwise unused) circular-buffer cursor. -/
structure AnalysisState where
  x0 : List Int
  x1 : List Int
  x_pos : Nat
deriving DecidableEq, Repr

/-- Fresh analysis filter (analysis.rs `AnalysisFilter::new`). -/
def AnalysisFilter.new : AnalysisState :=
  ⟨List.replicate 80 0, List.replicate 80 0, 0⟩

/-- Clear the filter history (analysis.rs `AnalysisFilter::reset`). -/
def AnalysisFilter.reset (_st : AnalysisState) : AnalysisState :=
  ⟨List.replicate 80 0, List.replicate 80 0, 0⟩

/-- History list of one channel. -/
def AnalysisState.getX (st : AnalysisState) (ch : Nat) : List Int :=
  if ch = 0 then st.x0 else st.x1

/-- Replace the history list of one channel. -/
def AnalysisState.setX (st : AnalysisState) (ch : Nat) (l : List Int) : AnalysisState :=
  if ch = 0 then { st with x0 := l } else { st with x1 := l }

/-- Prototype filter coefficients for 8-subband analysis (tables.rs `PROTO_8_80`). -/
def PROTO_8_80 : List Int :=
  [0, 0x83, -2877, 0x1649, -9735, 0x61EC, -36987, 0x1A8B6, -212481, 0xAC911,
   1, -127, 0xB67, -5704, 0x267A, -15248, 0x9F97, -107119, 0x38083, -664312,
   2, -238, 0x5A0, -3217, 0xC9D, -6530, 0x3F27, -29167, 0xDF5D, -203322,
   1, -26, 0x110, -955, -15, -1322, -1722, 0x336, -10336, 0x2C05,
   0, 0, -15, 0x30, -166, 0x15D, -1252, 0x951, -7316, 0x46E6,
   0, 1, -11, 0x2B, -130, 0xD8, -417, 0x3A9, -2481, 0x14F2,
   0, 0, -3, 0xA, -37, 0x2D, -82, 0x69, -147, 0x99,
   0, 0, 0, 1, -4, 6, -7, 9, -3, 3]

/-- Prototype filter coefficients for 4-subband analysis (tables.rs `PROTO_4_40`). -/
def PROTO_4_40 : List Int :=
  [0, 0x166, -5779, 0x2C95, -19470, 0xC3D9, -73976, 0x35142, -424964, 0x159222,
   2, -253, 0x16B4, -11408, 0x4CD5, -30496, 0x13F4F, -214238, 0x70107, -1328624,
   0, 0, -15, 0x61, -332, 0x2BA, -2504, 0x12A2, -14631, 0x8DCC,
   0, 0, -3, 9, -43, 0x3B, -104, 0x7A, -67, 0x46]

/-- Cosine modulation matrix for 8 subbands (tables.rs `COS_TABLE_8`). -/
def COS_TABLE_8 : List (List Int) :=
  [[0x2D41, 0x2D41, 0x2D41, 0x2D41, 0x2D41, 0x2D41, 0x2D41, 0x2D41],
   [0x3B21, 0x3B21, 0x187E, -0x187E, -0x3B21, -0x3B21, -0x187E, 0x187E],
   [0x3B21, 0, -0x3B21, -0x3B21, 0, 0x3B21, 0x3B21, 0],
   [0x3B21, -0x187E, -0x3B21, 0x187E, 0x3B21, -0x187E, -0x3B21, 0x187E],
   [0x2D41, -0x2D41, -0x2D41, 0x2D41, 0x2D41, -0x2D41, -0x2D41, 0x2D41],
   [0x187E, -0x3B21, 0x187E, 0x187E, -0x3B21, 0x187E, 0x187E, -0x3B21],
   [0, -0x3B21, 0x3B21, 0, -0x3B21, 0x3B21, 0, -0x3B21],
   [-0x187E, -0x187E, 0x3B21, -0x3B21, 0x187E, 0x187E, -0x3B21, 0x3B21]]

/-- Cosine modulation matrix for 4 subbands (tables.rs `COS_TABLE_4`). -/
def COS_TABLE_4 : List (List Int) :=
  [[0x2D41, 0x2D41, 0x2D41, 0x2D41],
   [0x3B21, 0x187E, -0x187E, -0x3B21],
   [0x2D41, -0x2D41, -0x2D41, 0x2D41],
   [0x187E, -0x3B21, 0x3B21, -0x187E]]

/-- Truncating cast of an `i64` value to `i32` (`as i32` in analysis.rs). -/
def asI32 (x : Int) : Int :=
  let r := x.emod 4294967296
  if r < 2147483648 then r else r - 4294967296

/-- Shift one block of new PCM samples into a channel's filter history
(analysis.rs `shift_in_samples`).  The Rust descending in-place shift over
indices `subbands..subbands*FILTER_DEPTH` followed by the reversed-order
insertion at the head is equivalent to this prepend-and-truncate; entries
beyond `subbands * FILTER_DEPTH` are untouched. -/
def shift_in_samples (x : List Int) (pcm : List Int) (block ch nsb nch : Nat) : List Int :=
  let pcm_start := block * nsb * nch + ch
  let history_len := nsb * FILTER_DEPTH
  ((List.range nsb).map fun i => pcm.getD (pcm_start + (nsb - 1 - i) * nch) 0)
    ++ x.take (history_len - nsb) ++ x.drop history_len

/-- Pointwise update of the partial-sum vector `z`. -/
def updZ (z : Nat → Int) (idx : Nat) (v : Int) : Nat → Int := fun i =>
  if i = idx then v else z i

/-- Polyphase windowing and cosine matrixing of one history state
(analysis.rs `compute_subbands`): prototype-filter partial sums into `z`,
then the cosine modulation per output subband. -/
def compute_subbands (x : List Int) (nsb : Nat) : Nat → Int :=
  let proto := if nsb = 8 then PROTO_8_80 else PROTO_4_40
  let z : Nat → Int :=
    (List.range FILTER_DEPTH).foldl
      (fun z j =>
        (List.range nsb).foldl
          (fun z i =>
            let x_idx := j * nsb + i
            let z_idx := i + (j % 2) * nsb
            let x_val := x.getD x_idx 0
            let proto_val := proto.getD x_idx 0
            updZ z z_idx (z z_idx + ((x_val * proto_val) >>> 15)))
          z)
      (fun _ => 0)
  let cos := if nsb = 8 then COS_TABLE_8 else COS_TABLE_4
  fun k =>
    if k < nsb then
      let sum :=
        (List.range (nsb * 2)).foldl
          (fun s i =>
            let cos_val := (cos.getD k []).getD (i % nsb) 0
            s + ((z i * cos_val) >>> 14))
          0
      asI32 (sum >>> 8)
    else 0

/-- Run the analysis filterbank over one frame of PCM (analysis.rs
`process`): per block and channel, shift in samples and compute subbands,
threading the filter state. -/
def analysis_process (st : AnalysisState) (pcm : List Int) (cfg : SbcConfig) :
    SubMat × AnalysisState :=
  let nsb := cfg.subbands.count
  let nblk := cfg.block_length.count
  let nch := cfg.channels
  (List.range nblk).foldl
    (fun acc blk =>
      (List.range nch).foldl
        (fun (acc : SubMat × AnalysisState) ch =>
          let (out, st) := acc
          let xNew := shift_in_samples (st.getX ch) pcm blk ch nsb nch
          let sb_samples := compute_subbands xNew nsb
          let out2 : SubMat := fun c b s =>
            if c = ch ∧ b = blk ∧ s < nsb then sb_samples s else out c b s
          (out2, st.setX ch xNew))
        acc)
    ((fun _ _ _ => 0), st)

/-- Frame packer bit-accumulator state (frame.rs `FramePacker` plus the
output cursor): the bytes written so far, the `u32` bit buffer, and the
number of buffered bits. -/
structure PackSt where
  out : List Nat
  buf : Nat
  nb : Nat
deriving DecidableEq, Repr

/-- The byte-flush loop of `write_bits` (frame.rs lines 51-62), fuelled by
its bound of 4 iterations; `none` models the output-bounds assert. -/
def write_bits_flush : Nat → PackSt → Nat → Option PackSt
  | 0, st, _ => some st
  | fuel + 1, st, cap =>
    if st.nb < 8 then some st
    else
      let nb2 := st.nb - 8
      let byte := (st.buf >>> nb2) &&& 255
      if st.out.length < cap then
        write_bits_flush fuel ⟨st.out ++ [byte], st.buf, nb2⟩ cap
      else none

/-- Append bits to the output (frame.rs `write_bits`); `none` models a
failing assert.  The `u32` bit buffer wraps modulo `2^32`. -/
def write_bits (st : PackSt) (cap value num_bits : Nat) : Option PackSt :=
  if ¬(num_bits ≤ 32) then none
  else if ¬(num_bits > 0) then none
  else
    let buf2 := ((st.buf <<< num_bits) % 4294967296) ||| (value &&& (1 <<< num_bits - 1))
    write_bits_flush 4 ⟨st.out, buf2, st.nb + num_bits⟩ cap

/-- Flush the remaining bits with zero padding and reset the accumulator
(frame.rs `flush`). -/
def packer_flush (st : PackSt) (cap : Nat) : Option PackSt :=
  if st.nb > 0 then
    let padding := 8 - st.nb
    let byte := (st.buf <<< padding) &&& 255
    if st.out.length < cap then some ⟨st.out ++ [byte], 0, 0⟩ else none
  else some ⟨st.out, 0, 0⟩

/-- Header byte 1 (frame.rs lines 113-117). -/
def headerByte1 (cfg : SbcConfig) : Nat :=
  (cfg.sampling_frequency.header_bits <<< 6) |||
  (cfg.block_length.header_bits <<< 4) |||
  (cfg.channel_mode.header_bits <<< 2) |||
  (cfg.allocation_method.header_bits <<< 1) |||
  cfg.subbands.header_bits

/-- Process one byte into the CRC register (the inner 8-bit loop of
frame.rs `calc_crc`); the `u8` register wraps modulo 256. -/
def crc_update_byte (crc0 b : Nat) : Nat :=
  (List.range 8).foldl
    (fun crc bit =>
      let msb := (crc >>> 7) &&& 1
      let crc2 := (crc <<< 1) % 256
      if ((b >>> (7 - bit)) &&& 1) ^^^ msb = 1 then crc2 ^^^ 0x1D else crc2)
    crc0

/-- Iterate `calc_crc` over the data with its running index, skipping
index 0 (the loop starts at 1) and index 3 (the CRC byte itself). -/
def calc_crc_aux : Nat → List Nat → Nat → Nat
  | _, [], crc => crc
  | i, b :: rest, crc =>
    if i = 0 ∨ i = 3 then calc_crc_aux (i + 1) rest crc
    else calc_crc_aux (i + 1) rest (crc_update_byte crc b)

/-- CRC-8 of a frame, polynomial `0x1D`, initial value `0x0F`, over every
byte except indices 0 and 3 (frame.rs `calc_crc`). -/
def calc_crc (data : List Nat) : Nat := calc_crc_aux 0 data 0x0F

/-- SBC sync word (frame.rs `SBC_SYNCWORD`). -/
def SBC_SYNCWORD : Nat := 0x9C

/-- Pack an SBC frame (frame.rs `FramePacker::pack`), returning the written
bytes and the byte count; `none` models a failing assert.  The initial
packer accumulator `_pst` is unused because `pack` begins with `reset()`. -/
def pack (_pst : Nat × Nat) (cfg : SbcConfig) (join_flags : Nat) (sfs : SfMat)
    (bits : BitMat) (samples : QMat) (cap : Nat) : Option (List Nat × Nat) :=
  if cap < 4 then none
  else
    (if cfg.channel_mode = ChannelMode.jointStereo then
        write_bits ⟨[SBC_SYNCWORD, headerByte1 cfg, cfg.bitpool, 0], 0, 0⟩ cap
          join_flags cfg.subbands.count
      else some ⟨[SBC_SYNCWORD, headerByte1 cfg, cfg.bitpool, 0], 0, 0⟩).bind fun st1 =>
    ((cellList cfg.channels cfg.subbands.count).foldlM
        (fun st p => write_bits st cap (sfs p) 4) st1).bind fun st2 =>
    ((List.range cfg.block_length.count).foldlM
        (fun st blk =>
          (cellList cfg.channels cfg.subbands.count).foldlM
            (fun st p =>
              if bits p > 0 then write_bits st cap (samples p.1 blk p.2) (bits p)
              else some st)
            st)
        st2).bind fun st3 =>
    (packer_flush st3 cap).bind fun st4 =>
    some (st4.out.set 3 (calc_crc st4.out), st4.out.length)

/-- Error type of the encoder (lib.rs `SbcError`). -/
inductive SbcError where
  | inputTooSmall
  | outputTooSmall
  | invalidConfig
  | encoderError
deriving DecidableEq, Repr

/-- Persistent encoder state (lib.rs `SbcEncoder`): the analysis filter
history plus the frame packer's bit accumulator.  The allocator and
quantizer hold no state. -/
structure EncoderState where
  analysis : AnalysisState
  packer_buf : Nat
  packer_nb : Nat
deriving DecidableEq, Repr

/-- Result of one `encode_frame` call: success carries the new encoder
state, the written bytes and the byte count; an error carries the encoder
state at the early return (unchanged from the input state); `panic` models
a failing internal assert. -/
inductive EncResult where
  | ok : EncoderState → List Nat → Nat → EncResult
  | err : SbcError → EncoderState → EncResult
  | panic : EncResult
deriving DecidableEq, Repr

/-- Freshly constructed encoder state (lib.rs `SbcEncoder::new`). -/
def SbcEncoder.fresh : EncoderState := ⟨AnalysisFilter.new, 0, 0⟩

/-- Reset the encoder: clears only the analysis filter history
(lib.rs `SbcEncoder::reset`). -/
def SbcEncoder.reset (st : EncoderState) : EncoderState :=
  { st with analysis := AnalysisFilter.reset st.analysis }

/-- Encode one frame (lib.rs `SbcEncoder::encode_frame`); `outLen` is the
length of the caller's output buffer. -/
def encode_frame (cfg : SbcConfig) (st : EncoderState) (pcm : List Int)
    (outLen : Nat) : EncResult :=
  let samples_needed := cfg.samples_per_frame * cfg.channels
  let fsz := cfg.frame_size
  if pcm.length < samples_needed then .err .inputTooSmall st
  else if outLen < fsz then .err .outputTooSmall st
  else
    let step1 := analysis_process st.analysis pcm cfg
    let subbands := step1.1
    let scale_factors := calc_scale_factors subbands cfg
    let step3 :=
      if cfg.channel_mode = ChannelMode.jointStereo then
        joint_stereo_process subbands scale_factors cfg
      else (subbands, 0)
    let bits := allocate scale_factors cfg step3.2
    match quantize step3.1 bits scale_factors cfg with
    | none => .panic
    | some quantized =>
      match pack (st.packer_buf, st.packer_nb) cfg step3.2 scale_factors bits
          quantized outLen with
      | none => .panic
      | some (frame, size) =>
        if size ≤ MAX_SBC_FRAME_SIZE then .ok ⟨step1.2, 0, 0⟩ frame size
        else .panic

/-! Helper lemmas about list folds and cell sums, used by the bit-allocator
budget invariant. -/

theorem foldl_add_sum {α : Type} (g : α → Nat) :
    ∀ (l : List α) (acc : Nat), l.foldl (fun a p => a + g p) acc = acc + (l.map g).sum := by
  intro l
  induction l with
  | nil => simp
  | cons x t ih => intro acc; simp [List.foldl_cons, ih, Nat.add_assoc]

theorem sum_map_update_of_nodup {l : List (Nat × Nat)} (hnd : l.Nodup) {p : Nat × Nat}
    (hp : p ∈ l) (m : BitMat) (v : Nat) :
    (l.map (Function.update m p v)).sum + m p = (l.map m).sum + v := by
  induction l with
  | nil => cases hp
  | cons q t ih =>
    rcases List.nodup_cons.mp hnd with ⟨hqt, hndt⟩
    rcases List.mem_cons.mp hp with rfl | hpt
    · have ht : t.map (Function.update m p v) = t.map m := by
        apply List.map_congr_left
        intro q' hq'
        have hne : q' ≠ p := by intro h; subst h; exact hqt hq'
        exact Function.update_noteq hne v m
      simp only [List.map_cons, List.sum_cons, ht, Function.update_same]
      omega
    · have hqp : q ≠ p := by intro h; subst h; exact hqt hpt
      have hrec := ih hndt hpt
      simp only [List.map_cons, List.sum_cons, Function.update_noteq hqp v m]
      omega

theorem cellList_nodup (nch nsb : Nat) : (cellList nch nsb).Nodup := by
  have h : cellList nch nsb = (List.range nch) ×ˢ (List.range nsb) := rfl
  rw [h]
  exact List.Nodup.product (List.nodup_range nch) (List.nodup_range nsb)

/-- A fold whose step never changes the state is the identity. -/
theorem foldl_id {α β : Type} {f : β → α → β} (hf : ∀ b a, f b a = b) :
    ∀ (l : List α) (b : β), l.foldl f b = b := by
  intro l
  induction l with
  | nil => intro b; rfl
  | cons x t ih => intro b; rw [List.foldl_cons, hf]; exact ih b

/-- Applying one slice to the cells of a nodup list grows the total over a
fixed cell list by at most the counted grant total. -/
theorem applySlice_total (bitneed : NeedMat) (bs : Int) (cells : List (Nat × Nat))
    (hcells : cells.Nodup) :
    ∀ (l : List (Nat × Nat)), l.Nodup → (∀ p ∈ l, p ∈ cells) → ∀ (m : BitMat),
      (cells.map (l.foldl (applySliceStep bitneed bs) m)).sum ≤
        (cells.map m).sum + (l.map (sliceGrant bitneed m bs)).sum := by
  intro l
  induction l with
  | nil => intro _ _ m; simp
  | cons q t ih =>
    intro hnd hsub m
    rcases List.nodup_cons.mp hnd with ⟨hqt, hndt⟩
    have hq : q ∈ cells := hsub q (List.mem_cons_self q t)
    have hsubt : ∀ p ∈ t, p ∈ cells := fun p hp => hsub p (List.mem_cons_of_mem q hp)
    have hgrant : t.map (sliceGrant bitneed (applySliceStep bitneed bs m q) bs) =
        t.map (sliceGrant bitneed m bs) := by
      apply List.map_congr_left
      intro p hpt
      have hpq : p ≠ q := by intro h; subst h; exact hqt hpt
      have hmp : applySliceStep bitneed bs m q p = m p := by
        unfold applySliceStep
        split
        · exact Function.update_noteq hpq 2 m
        · split
          · exact Function.update_noteq hpq _ m
          · rfl
      unfold sliceGrant
      rw [hmp]
    have hdelta : (cells.map (applySliceStep bitneed bs m q)).sum ≤
        (cells.map m).sum + sliceGrant bitneed m bs q := by
      unfold applySliceStep sliceGrant
      split_ifs with h1 h2
      · have h := sum_map_update_of_nodup hcells hq m 2
        omega
      · have h := sum_map_update_of_nodup hcells hq m (m q + 1)
        omega
      · omega
    have hrec := ih hndt hsubt (applySliceStep bitneed bs m q)
    rw [List.foldl_cons]
    simp only [List.map_cons, List.sum_cons]
    rw [hgrant] at hrec
    omega

/-- Budget invariant of the descending bit-slice pass: the cell total plus
the remaining budget never exceeds the bitpool, and the remaining budget
stays nonnegative. -/
theorem slicePass_invariant (bitneed : NeedMat) (cells : List (Nat × Nat))
    (hcells : cells.Nodup) (B : Nat) :
    ∀ (fuel : Nat) (st : BitMat × Int × Int),
      0 ≤ st.2.2 → (cells.map st.1).sum + st.2.2.toNat ≤ B →
      0 ≤ (slicePass bitneed cells fuel st).2.2 ∧
        (cells.map (slicePass bitneed cells fuel st).1).sum +
          (slicePass bitneed cells fuel st).2.2.toNat ≤ B := by
  intro fuel
  induction fuel with
  | zero => intro st h1 h2; exact ⟨h1, h2⟩
  | succ n ih =>
    rintro ⟨m, bitslice, remaining⟩ h1 h2
    have h1' : (0 : Int) ≤ remaining := h1
    have h2' : (cells.map m).sum + remaining.toNat ≤ B := h2
    rw [show slicePass bitneed cells (n + 1) (m, bitslice, remaining) =
        (if bitslice ≤ 0 ∨ remaining ≤ 0 then (m, bitslice, remaining)
         else if ((countUsed bitneed m (bitslice - 1) cells : Nat) : Int) ≤ remaining then
           slicePass bitneed cells n
             (applySlice bitneed (bitslice - 1) cells m, bitslice - 1,
              remaining - (countUsed bitneed m (bitslice - 1) cells : Nat))
         else slicePass bitneed cells n (m, bitslice - 1, remaining)) from rfl]
    split_ifs with hstop happly
    · exact ⟨h1, h2⟩
    · have hused : countUsed bitneed m (bitslice - 1) cells =
          (cells.map (sliceGrant bitneed m (bitslice - 1))).sum := by
        unfold countUsed
        rw [foldl_add_sum]
        omega
      have happ := applySlice_total bitneed (bitslice - 1) cells hcells cells hcells
        (fun p hp => hp) m
      apply ih
      · show (0 : Int) ≤ remaining - (countUsed bitneed m (bitslice - 1) cells : Nat)
        omega
      · show ((cells.map (applySlice bitneed (bitslice - 1) cells m)).sum : Nat) +
          (remaining - ((countUsed bitneed m (bitslice - 1) cells : Nat) : Int)).toNat ≤ B
        unfold applySlice
        omega
    · exact ih (m, bitslice - 1, remaining) h1' h2'

/-- One cell of the second pass preserves the cell total plus remaining
budget exactly, and keeps the budget nonnegative. -/
theorem secondStep_invariant (bitneed : NeedMat) (cells : List (Nat × Nat))
    (hcells : cells.Nodup) {p : Nat × Nat} (hp : p ∈ cells)
    (st : BitMat × Int × Bool) (h1 : 0 ≤ st.2.1) :
    0 ≤ (secondStep bitneed st p).2.1 ∧
      (cells.map (secondStep bitneed st p).1).sum +
          (secondStep bitneed st p).2.1.toNat =
        (cells.map st.1).sum + st.2.1.toNat := by
  rcases st with ⟨m, rem, alloc⟩
  have h1' : (0 : Int) ≤ rem := h1
  rw [show secondStep bitneed (m, rem, alloc) p =
      (if rem ≤ 0 then (m, rem, alloc)
       else if m p < 16 ∧ bitneed p > 0 then
         if m p = 0 then
           if rem ≥ 2 then (Function.update m p 2, rem - 2, true) else (m, rem, alloc)
         else (Function.update m p (m p + 1), rem - 1, true)
       else (m, rem, alloc)) from rfl]
  split_ifs with hr hm hz hr2
  · exact ⟨h1, rfl⟩
  · have h := sum_map_update_of_nodup hcells hp m 2
    refine ⟨by show (0 : Int) ≤ rem - 2; omega, ?_⟩
    show (cells.map (Function.update m p 2)).sum + (rem - 2).toNat =
      (cells.map m).sum + rem.toNat
    omega
  · exact ⟨h1, rfl⟩
  · have h := sum_map_update_of_nodup hcells hp m (m p + 1)
    refine ⟨by show (0 : Int) ≤ rem - 1; omega, ?_⟩
    show (cells.map (Function.update m p (m p + 1))).sum + (rem - 1).toNat =
      (cells.map m).sum + rem.toNat
    omega
  · exact ⟨h1, rfl⟩

/-- The cell scan of the second pass preserves the invariant. -/
theorem secondFold_invariant (bitneed : NeedMat) (cells : List (Nat × Nat))
    (hcells : cells.Nodup) :
    ∀ (l : List (Nat × Nat)), (∀ p ∈ l, p ∈ cells) → ∀ (st : BitMat × Int × Bool),
      0 ≤ st.2.1 →
      0 ≤ (l.foldl (secondStep bitneed) st).2.1 ∧
        (cells.map (l.foldl (secondStep bitneed) st).1).sum +
            (l.foldl (secondStep bitneed) st).2.1.toNat =
          (cells.map st.1).sum + st.2.1.toNat := by
  intro l
  induction l with
  | nil => intro _ st h1; exact ⟨h1, rfl⟩
  | cons q t ih =>
    intro hsub st h1
    have hq : q ∈ cells := hsub q (List.mem_cons_self q t)
    have hstep := secondStep_invariant bitneed cells hcells hq st h1
    have hrec := ih (fun p hp => hsub p (List.mem_cons_of_mem q hp))
      (secondStep bitneed st q) hstep.1
    rw [List.foldl_cons]
    exact ⟨hrec.1, by omega⟩

/-- Budget invariant of the second pass. -/
theorem secondPass_invariant (bitneed : NeedMat) (cells : List (Nat × Nat))
    (hcells : cells.Nodup) (B : Nat) :
    ∀ (fuel : Nat) (st : BitMat × Int),
      0 ≤ st.2 → (cells.map st.1).sum + st.2.toNat ≤ B →
      0 ≤ (secondPass bitneed cells fuel st).2 ∧
        (cells.map (secondPass bitneed cells fuel st).1).sum +
          (secondPass bitneed cells fuel st).2.toNat ≤ B := by
  intro fuel
  induction fuel with
  | zero => intro st h1 h2; exact ⟨h1, h2⟩
  | succ n ih =>
    rintro ⟨m, rem⟩ h1 h2
    have h1' : (0 : Int) ≤ rem := h1
    have h2' : (cells.map m).sum + rem.toNat ≤ B := h2
    rw [show secondPass bitneed cells (n + 1) (m, rem) =
        (if rem ≤ 0 then (m, rem)
         else if (cells.foldl (secondStep bitneed) (m, rem, false)).2.2 then
           secondPass bitneed cells n
             ((cells.foldl (secondStep bitneed) (m, rem, false)).1,
              (cells.foldl (secondStep bitneed) (m, rem, false)).2.1)
         else ((cells.foldl (secondStep bitneed) (m, rem, false)).1,
               (cells.foldl (secondStep bitneed) (m, rem, false)).2.1))
        from rfl]
    have hfold := secondFold_invariant bitneed cells hcells cells
      (fun p hp => hp) (m, rem, false) h1'
    have hrem2 : (0 : Int) ≤ (cells.foldl (secondStep bitneed) (m, rem, false)).2.1 :=
      hfold.1
    have hsum2 : (cells.map (cells.foldl (secondStep bitneed) (m, rem, false)).1).sum +
        (cells.foldl (secondStep bitneed) (m, rem, false)).2.1.toNat =
        (cells.map m).sum + rem.toNat := hfold.2
    split_ifs with hstop hallocated
    · exact ⟨h1, h2⟩
    · apply ih
      · exact hrem2
      · show (cells.map (cells.foldl (secondStep bitneed) (m, rem, false)).1).sum +
          (cells.foldl (secondStep bitneed) (m, rem, false)).2.1.toNat ≤ B
        omega
    · refine ⟨hrem2, ?_⟩
      show (cells.map (cells.foldl (secondStep bitneed) (m, rem, false)).1).sum +
        (cells.foldl (secondStep bitneed) (m, rem, false)).2.1.toNat ≤ B
      omega

/-- With a zero join-flags byte or outside JointStereo mode, the joint
adjustment is the identity. -/
theorem jointAdjust_eq_of_no_join (cfg : SbcConfig) (join_flags : Nat) (m : BitMat)
    (h : join_flags = 0 ∨ cfg.channel_mode ≠ ChannelMode.jointStereo) :
    jointAdjust cfg join_flags m = m := by
  unfold jointAdjust
  rcases h with rfl | hmode
  · split_ifs with hc
    · apply foldl_id
      intro b a
      simp [Nat.zero_shiftRight, Nat.zero_and]
    · rfl
  · rw [if_neg]
    rintro ⟨hm, _⟩
    exact hmode hm

/-- The distributed bit matrix respects the bitpool budget whenever no
joint-stereo forcing applies. -/
theorem distribute_bits_le (bitneed : NeedMat) (cfg : SbcConfig) (join_flags : Nat)
    (hnj : join_flags = 0 ∨ cfg.channel_mode ≠ ChannelMode.jointStereo) :
    totalBits cfg.channels cfg.subbands.count (distribute_bits bitneed cfg join_flags) ≤
      cfg.bitpool := by
  have hcells := cellList_nodup cfg.channels cfg.subbands.count
  have hzero :
      ((cellList cfg.channels cfg.subbands.count).map
        ((fun _ => 0) : BitMat)).sum + ((cfg.bitpool : Int)).toNat ≤ cfg.bitpool := by
    simp
  have h1 := slicePass_invariant bitneed (cellList cfg.channels cfg.subbands.count)
    hcells cfg.bitpool 64
    ((fun _ => 0),
      (cellList cfg.channels cfg.subbands.count).foldl
        (fun acc p => if bitneed p > acc then bitneed p else acc) (-2147483648) + 1,
      (cfg.bitpool : Int))
    (by positivity) hzero
  have h2 := secondPass_invariant bitneed (cellList cfg.channels cfg.subbands.count)
    hcells cfg.bitpool 256
    ((slicePass bitneed (cellList cfg.channels cfg.subbands.count) 64
        ((fun _ => 0),
          (cellList cfg.channels cfg.subbands.count).foldl
            (fun acc p => if bitneed p > acc then bitneed p else acc) (-2147483648) + 1,
          (cfg.bitpool : Int))).1,
      (slicePass bitneed (cellList cfg.channels cfg.subbands.count) 64
        ((fun _ => 0),
          (cellList cfg.channels cfg.subbands.count).foldl
            (fun acc p => if bitneed p > acc then bitneed p else acc) (-2147483648) + 1,
          (cfg.bitpool : Int))).2.2)
    h1.1 h1.2
  show ((cellList cfg.channels cfg.subbands.count).map
      (jointAdjust cfg join_flags
        (secondPass bitneed (cellList cfg.channels cfg.subbands.count) 256
          ((slicePass bitneed (cellList cfg.channels cfg.subbands.count) 64
              ((fun _ => 0),
                (cellList cfg.channels cfg.subbands.count).foldl
                  (fun acc p => if bitneed p > acc then bitneed p else acc)
                  (-2147483648) + 1,
                (cfg.bitpool : Int))).1,
            (slicePass bitneed (cellList cfg.channels cfg.subbands.count) 64
              ((fun _ => 0),
                (cellList cfg.channels cfg.subbands.count).foldl
                  (fun acc p => if bitneed p > acc then bitneed p else acc)
                  (-2147483648) + 1,
                (cfg.bitpool : Int))).2.2)).1)).sum ≤ cfg.bitpool
  rw [jointAdjust_eq_of_no_join cfg join_flags _ hnj]
  omega

/-! Concrete inputs used by counterexamples, code-bug evaluations and
witnesses. -/

/-- A valid JointStereo configuration with the minimum bitpool. -/
def cfgC1 : SbcConfig := ⟨.freq44100, .jointStereo, .blocks16, .sub8, .snr, 2⟩

/-- Scale factors: 1 in channel 0 subband 0, 0 elsewhere. -/
def sfsC1 : SfMat := fun p => if p = (0, 0) then 1 else 0

/-- A valid DualChannel configuration at its maximum bitpool of 128. -/
def cfgC2 : SbcConfig := ⟨.freq44100, .dualChannel, .blocks16, .sub8, .loudness, 128⟩

/-- A valid Mono Loudness configuration. -/
def cfgC3 : SbcConfig := ⟨.freq44100, .mono, .blocks4, .sub4, .loudness, 50⟩

/-- Scale factors: 15 in channel 0 subband 0, 0 elsewhere. -/
def sfsC3 : SfMat := fun p => if p = (0, 0) then 15 else 0

/-- A channel-0 filter history whose windowed partial sums are nearly equal
across the four polyphase lanes, so that the block-0 analysis output is
large in subband 0 and tiny in subbands 1-3. -/
def histC10 : List Int :=
  [0, 0, 0, 0, -231323, 69538, 0, 0, 0, 0, 0, 0, 0, 0, 214163, -73989] ++
    List.replicate 64 0

/-- Analysis state holding `histC10` in channel 0. -/
def stC10 : AnalysisState := ⟨histC10, List.replicate 80 0, 0⟩

/-- The valid configuration used for the claim 10 failing input. -/
def cfgC10 : SbcConfig := ⟨.freq44100, .mono, .blocks4, .sub4, .loudness, 50⟩

/-- All-zero PCM input of exactly one frame for `cfgC10`. -/
def pcmC10 : List Int := List.replicate 16 0

/-- C1: as stated (for every join-flags value) the claim fails: at the
valid configuration `cfgC1` (bitpool 2) with join flags `0x80`, the
joint-stereo forcing step raises the total to 4 > 2. -/
theorem claim1_counterexample :
    cfgC1.is_valid = true ∧
      totalBits cfgC1.channels cfgC1.subbands.count (allocate sfsC1 cfgC1 128) = 4 ∧
      ¬(totalBits cfgC1.channels cfgC1.subbands.count (allocate sfsC1 cfgC1 128) ≤
          cfgC1.bitpool) := by
  decide

/-- C1 (amended): for every valid configuration, every scale-factor matrix
and every join-flags value, the total of the allocated bit matrix over the
active cells never exceeds the bitpool, provided no subband is actually
joined (zero join flags, or a mode other than JointStereo); the final
joint-stereo forcing step is then the identity. -/
theorem claim1_total_bits_le_bitpool (cfg : SbcConfig) (sfs : SfMat) (join_flags : Nat)
    (_hvalid : cfg.is_valid = true)
    (hnj : join_flags = 0 ∨ cfg.channel_mode ≠ ChannelMode.jointStereo) :
    totalBits cfg.channels cfg.subbands.count (allocate sfs cfg join_flags) ≤
      cfg.bitpool := by
  unfold allocate
  split
  · exact distribute_bits_le _ cfg join_flags hnj
  · exact distribute_bits_le _ cfg join_flags hnj

/-- C1 witness: the amended theorem applied at `cfgC1` with zero flags. -/
theorem claim1_witness :
    totalBits cfgC1.channels cfgC1.subbands.count (allocate sfsC1 cfgC1 0) ≤
      cfgC1.bitpool :=
  claim1_total_bits_le_bitpool cfgC1 sfsC1 0 (by decide) (Or.inl rfl)

/-- C2: as stated the claim fails: `cfgC2` is valid but its frame size is
524, above `MAX_SBC_FRAME_SIZE = 512`. -/
theorem claim2_counterexample :
    cfgC2.is_valid = true ∧ cfgC2.frame_size = 524 ∧
      ¬(cfgC2.frame_size ≤ MAX_SBC_FRAME_SIZE) := by
  decide

/-- C2 (amended): for every valid configuration, `frame_size` is positive
and at most 524 (its actual maximum over valid geometries, attained by
`cfgC2`); determinism is inherent since `frame_size` is a pure function of
the configuration. -/
theorem claim2_frame_size_bounds (cfg : SbcConfig) (h : cfg.is_valid = true) :
    0 < cfg.frame_size ∧ cfg.frame_size ≤ 524 := by
  have hb : cfg.bitpool ≤ cfg.max_bitpool ∧ 2 ≤ cfg.bitpool := by
    unfold SbcConfig.is_valid at h
    split_ifs at h with h1 h2
    exact ⟨by omega, by omega⟩
  rcases cfg with ⟨f, cm, bl, sb, am, bp⟩
  cases cm <;> cases sb <;> cases bl <;>
    simp only [SbcConfig.frame_size, SbcConfig.max_bitpool, SbcConfig.channels,
      ChannelMode.channels, Subbands.count, BlockLength.count,
      Nat.reduceMul, Nat.reduceGT, if_false, if_true] at * <;>
    omega

/-- C2 witness: the amended bounds at the maximal valid configuration. -/
theorem claim2_witness : 0 < cfgC2.frame_size ∧ cfgC2.frame_size ≤ 524 :=
  claim2_frame_size_bounds cfgC2 (by decide)

/-- C3: the code violates the cell range invariant: at the valid Mono
Loudness configuration `cfgC3` with scale factor 15 in subband 0 (whose
Loudness offset is -2, so its bit need is 17), the first distribution pass
drives the cell to 18 bits, above the 16-bit ceiling that the second pass
and `quantize_sample`'s own assert enforce. -/
theorem claim3_cell_exceeds_16 :
    cfgC3.is_valid = true ∧ (∀ p, sfsC3 p ≤ 15) ∧
      allocate sfsC3 cfgC3 0 (0, 0) = 18 ∧
      ¬(allocate sfsC3 cfgC3 0 (0, 0) ≤ 16) := by
  refine ⟨by decide, ?_, by decide, by decide⟩
  intro p
  unfold sfsC3
  split <;> omega

/-- C4: `encode_frame` returns `InputTooSmall` when the PCM slice is short,
returns `OutputTooSmall` when (with sufficient PCM) the output buffer is
shorter than `frame_size`, and in both cases returns the encoder state
unchanged (the analysis filter history in particular). -/
theorem claim4_error_paths (cfg : SbcConfig) (st : EncoderState) (pcm : List Int)
    (outLen : Nat) :
    (pcm.length < cfg.samples_per_frame * cfg.channels →
      encode_frame cfg st pcm outLen = .err .inputTooSmall st) ∧
    (cfg.samples_per_frame * cfg.channels ≤ pcm.length → outLen < cfg.frame_size →
      encode_frame cfg st pcm outLen = .err .outputTooSmall st) := by
  constructor
  · intro h
    simp only [encode_frame]
    split_ifs <;> first | rfl | omega
  · intro h1 h2
    simp only [encode_frame]
    split_ifs <;> first | rfl | omega

/-- C4 witness: both error paths at concrete inputs: a 10-sample PCM slice
for the input error, and a 4-byte output buffer for the output error. -/
theorem claim4_witness :
    encode_frame cfgC3 SbcEncoder.fresh (List.replicate 10 0) 512 =
        .err .inputTooSmall SbcEncoder.fresh ∧
      encode_frame cfgC3 SbcEncoder.fresh (List.replicate 16 0) 4 =
        .err .outputTooSmall SbcEncoder.fresh :=
  ⟨(claim4_error_paths cfgC3 SbcEncoder.fresh (List.replicate 10 0) 512).1 (by decide),
   (claim4_error_paths cfgC3 SbcEncoder.fresh (List.replicate 16 0) 4).2
     (by decide) (by decide)⟩

/-- C7 formula as the specification words it: normalize by a truncating
division of `sample << 15` by the scale level, offset by 32768, scale by
`2^bits - 1` with an arithmetic shift right by 16, and clamp to
`[0, 2^bits - 1]`. -/
def quantize_formula (sample scale_level : Int) (bits : Nat) : Int :=
  max 0 (min (((Int.tdiv (sample * 2 ^ 15) scale_level + 32768) * (2 ^ bits - 1)) >>> 16)
    (2 ^ bits - 1))

/-- C7: for every `i32` sample, every bit count in `[1,16]` and every scale
level of the form `2^(scale_factor+1)`, `quantize_sample` returns exactly
the claim's clamped formula. -/
theorem claim7_quantize_formula (sample scale_level : Int) (bits sf : Nat)
    (hb1 : 1 ≤ bits) (hb2 : bits ≤ 16) (hlev : scale_level = 2 ^ (sf + 1))
    (_hsample : sample.natAbs < 2 ^ 31) :
    quantize_sample sample bits scale_level =
      some (quantize_formula sample scale_level bits).toNat := by
  have hpos : (0 : Int) < scale_level := by rw [hlev]; positivity
  simp only [quantize_sample, quantize_formula]
  rw [if_neg (by push_neg; omega), if_neg (by push_neg; exact hpos)]
  congr 1
  split_ifs <;> omega

/-- C7 witness: the formula at sample 1000, 4 bits, scale level `2^10`. -/
theorem claim7_witness :
    quantize_sample 1000 4 1024 = some (quantize_formula 1000 1024 4).toNat :=
  claim7_quantize_formula 1000 1024 4 9 (by decide) (by decide) (by decide) (by decide)

/-- The output of `pack` does not depend on the initial packer accumulator,
because `pack` begins with `reset()`. -/
theorem pack_pst_eq (p1 p2 : Nat × Nat) (cfg : SbcConfig) (jf : Nat) (sfs : SfMat)
    (bits : BitMat) (samples : QMat) (cap : Nat) :
    pack p1 cfg jf sfs bits samples cap = pack p2 cfg jf sfs bits samples cap := rfl

/-- The caller-observable outcome of one `encode_frame` call: the written
bytes and returned byte count on success, the returned error, or a panic. -/
inductive EncOutput where
  | ok : List Nat → Nat → EncOutput
  | err : SbcError → EncOutput
  | panic : EncOutput
deriving DecidableEq, Repr

/-- Project an encode result onto its caller-observable outcome. -/
def EncResult.output : EncResult → EncOutput
  | .ok _ frame size => .ok frame size
  | .err e _ => .err e
  | .panic => .panic

/-- C9: encoding after `reset()` produces the same observable outcome, byte
for byte and in returned byte count, as encoding from a freshly constructed
encoder, for every configuration, prior state, PCM input and output-buffer
length.  Both sides carry the same cleared filter history, and `pack`
overwrites the packer accumulator before use. -/
theorem claim9_reset_eq_fresh (cfg : SbcConfig) (st : EncoderState) (pcm : List Int)
    (outLen : Nat) :
    (encode_frame cfg (SbcEncoder.reset st) pcm outLen).output =
      (encode_frame cfg SbcEncoder.fresh pcm outLen).output := by
  simp only [encode_frame]
  by_cases hin : pcm.length < cfg.samples_per_frame * cfg.channels
  · rw [if_pos hin, if_pos hin]
    rfl
  · rw [if_neg hin, if_neg hin]
    by_cases hout : outLen < cfg.frame_size
    · rw [if_pos hout, if_pos hout]
      rfl
    · rw [if_neg hout, if_neg hout]
      rw [show (SbcEncoder.reset st).analysis = SbcEncoder.fresh.analysis from rfl]
      cases hq :
      quantize
        (if cfg.channel_mode = ChannelMode.jointStereo then
            joint_stereo_process (analysis_process SbcEncoder.fresh.analysis pcm cfg).1
              (calc_scale_factors (analysis_process SbcEncoder.fresh.analysis pcm cfg).1
                cfg) cfg
          else ((analysis_process SbcEncoder.fresh.analysis pcm cfg).1, 0)).1
        (allocate
          (calc_scale_factors (analysis_process SbcEncoder.fresh.analysis pcm cfg).1 cfg)
          cfg
          (if cfg.channel_mode = ChannelMode.jointStereo then
              joint_stereo_process (analysis_process SbcEncoder.fresh.analysis pcm cfg).1
                (calc_scale_factors (analysis_process SbcEncoder.fresh.analysis pcm cfg).1
                  cfg) cfg
            else ((analysis_process SbcEncoder.fresh.analysis pcm cfg).1, 0)).2)
        (calc_scale_factors (analysis_process SbcEncoder.fresh.analysis pcm cfg).1 cfg)
        cfg with
      | none => rfl
      | some quantized =>
        dsimp only
        rw [pack_pst_eq
          ((SbcEncoder.reset st).packer_buf, (SbcEncoder.reset st).packer_nb)
          (SbcEncoder.fresh.packer_buf, SbcEncoder.fresh.packer_nb)]

/-- The flush loop of `write_bits` only appends bytes to the output. -/
theorem write_bits_flush_out :
    ∀ (fuel : Nat) (st : PackSt) (cap : Nat) (st' : PackSt),
      write_bits_flush fuel st cap = some st' → ∃ l, st'.out = st.out ++ l := by
  intro fuel
  induction fuel with
  | zero =>
    intro st cap st' h
    have hst : st = st' := Option.some.inj h
    subst hst
    exact ⟨[], (List.append_nil _).symm⟩
  | succ n ih =>
    intro st cap st' h
    rw [show write_bits_flush (n + 1) st cap =
        (if st.nb < 8 then some st
         else if st.out.length < cap then
           write_bits_flush n ⟨st.out ++ [(st.buf >>> (st.nb - 8)) &&& 255], st.buf,
             st.nb - 8⟩ cap
         else none) from rfl] at h
    by_cases h1 : st.nb < 8
    · rw [if_pos h1] at h
      have hst : st = st' := Option.some.inj h
      subst hst
      exact ⟨[], (List.append_nil _).symm⟩
    · rw [if_neg h1] at h
      by_cases h2 : st.out.length < cap
      · rw [if_pos h2] at h
        rcases ih _ cap st' h with ⟨l, hl⟩
        exact ⟨_ :: l, by simpa using hl⟩
      · rw [if_neg h2] at h
        exact absurd h (by simp)

/-- `write_bits` only appends bytes to the output. -/
theorem write_bits_out (st : PackSt) (cap value num_bits : Nat) (st' : PackSt)
    (h : write_bits st cap value num_bits = some st') : ∃ l, st'.out = st.out ++ l := by
  unfold write_bits at h
  by_cases h1 : ¬(num_bits ≤ 32)
  · rw [if_pos h1] at h
    exact absurd h (by simp)
  · rw [if_neg h1] at h
    by_cases h2 : ¬(num_bits > 0)
    · rw [if_pos h2] at h
      exact absurd h (by simp)
    · rw [if_neg h2] at h
      have h' : write_bits_flush 4
          ⟨st.out, ((st.buf <<< num_bits) % 4294967296) ||| (value &&& (1 <<< num_bits - 1)),
            st.nb + num_bits⟩ cap = some st' := h
      rcases write_bits_flush_out 4
          ⟨st.out, ((st.buf <<< num_bits) % 4294967296) ||| (value &&& (1 <<< num_bits - 1)),
            st.nb + num_bits⟩ cap st' h' with ⟨l, hl⟩
      exact ⟨l, hl⟩

/-- `flush` only appends bytes to the output. -/
theorem packer_flush_out (st : PackSt) (cap : Nat) (st' : PackSt)
    (h : packer_flush st cap = some st') : ∃ l, st'.out = st.out ++ l := by
  unfold packer_flush at h
  by_cases h1 : st.nb > 0
  · rw [if_pos h1] at h
    by_cases h2 : st.out.length < cap
    · rw [if_pos h2] at h
      have hst := Option.some.inj h
      subst hst
      exact ⟨_, rfl⟩
    · rw [if_neg h2] at h
      exact absurd h (by simp)
  · rw [if_neg h1] at h
    have hst := Option.some.inj h
    subst hst
    exact ⟨[], (List.append_nil _).symm⟩

/-- A monadic fold of append-only steps is append-only. -/
theorem foldlM_pack_out {α : Type} (step : PackSt → α → Option PackSt)
    (hstep : ∀ st a st', step st a = some st' → ∃ l, st'.out = st.out ++ l) :
    ∀ (xs : List α) (st st' : PackSt), xs.foldlM step st = some st' →
      ∃ l, st'.out = st.out ++ l := by
  intro xs
  induction xs with
  | nil =>
    intro st st' h
    cases h
    exact ⟨[], (List.append_nil _).symm⟩
  | cons x t ih =>
    intro st st' h
    rw [List.foldlM_cons] at h
    rcases Option.bind_eq_some.mp h with ⟨st1, hst1, hrest⟩
    rcases hstep st x st1 hst1 with ⟨l1, hl1⟩
    rcases ih st1 st' hrest with ⟨l2, hl2⟩
    exact ⟨l1 ++ l2, by rw [hl2, hl1, List.append_assoc]⟩

/-- The shifted-or packing of the five header fields equals their weighted
sum, checked over all field values. -/
theorem headerByte1_fields (f : SamplingFrequency) (m : ChannelMode) (b : BlockLength)
    (s : Subbands) (a : AllocationMethod) :
    (f.header_bits <<< 6) ||| (b.header_bits <<< 4) ||| (m.header_bits <<< 2) |||
        (a.header_bits <<< 1) ||| s.header_bits =
      f.header_bits * 64 + b.header_bits * 16 + m.header_bits * 4 +
        a.header_bits * 2 + s.header_bits := by
  cases f <;> cases m <;> cases b <;> cases s <;> cases a <;> decide

/-- Header byte 1 written as weighted field sums, as the specification
words it. -/
theorem headerByte1_eq (cfg : SbcConfig) :
    headerByte1 cfg = cfg.sampling_frequency.header_bits * 64 +
      cfg.block_length.header_bits * 16 + cfg.channel_mode.header_bits * 4 +
      cfg.allocation_method.header_bits * 2 + cfg.subbands.header_bits :=
  headerByte1_fields cfg.sampling_frequency cfg.channel_mode cfg.block_length
    cfg.subbands cfg.allocation_method

/-- The CRC skips index 3, so it is unchanged when byte 3 is replaced. -/
theorem calc_crc_set3 (a b c d x : Nat) (l : List Nat) :
    calc_crc (a :: b :: c :: x :: l) = calc_crc (a :: b :: c :: d :: l) := by
  simp [calc_crc, calc_crc_aux]

/-- C5: every frame produced by `FramePacker::pack` has the sync word 0x9C
at byte 0; the frequency/blocks/mode/allocation/subbands fields packed as
weighted sums in byte 1; the raw bitpool at byte 2; and at byte 3 the CRC-8
(polynomial 0x1D, initial value 0x0F, MSB-first, as embodied in `calc_crc`)
of the frame's bytes excluding bytes 0 and 3. -/
theorem claim5_pack_header_crc (pst : Nat × Nat) (cfg : SbcConfig) (join_flags : Nat)
    (sfs : SfMat) (bits : BitMat) (samples : QMat) (cap : Nat) (frame : List Nat)
    (n : Nat) (h : pack pst cfg join_flags sfs bits samples cap = some (frame, n)) :
    frame.get? 0 = some SBC_SYNCWORD ∧
      frame.get? 1 = some (cfg.sampling_frequency.header_bits * 64 +
        cfg.block_length.header_bits * 16 + cfg.channel_mode.header_bits * 4 +
        cfg.allocation_method.header_bits * 2 + cfg.subbands.header_bits) ∧
      frame.get? 2 = some cfg.bitpool ∧
      frame.get? 3 = some (calc_crc frame) := by
  simp only [pack] at h
  by_cases hcap : cap < 4
  · rw [if_pos hcap] at h
    cases h
  rw [if_neg hcap] at h
  rcases Option.bind_eq_some.mp h with ⟨st1, hst1, h⟩
  rcases Option.bind_eq_some.mp h with ⟨st2, hst2, h⟩
  rcases Option.bind_eq_some.mp h with ⟨st3, hst3, h⟩
  rcases Option.bind_eq_some.mp h with ⟨st4, hst4, h⟩
  have hl1 : ∃ l, st1.out = [SBC_SYNCWORD, headerByte1 cfg, cfg.bitpool, 0] ++ l := by
    by_cases hm : cfg.channel_mode = ChannelMode.jointStereo
    · rw [if_pos hm] at hst1
      exact write_bits_out _ cap join_flags _ st1 hst1
    · rw [if_neg hm] at hst1
      cases hst1
      exact ⟨[], (List.append_nil _).symm⟩
  rcases hl1 with ⟨l1, hl1⟩
  rcases foldlM_pack_out _ (fun st p st' hs => write_bits_out st cap (sfs p) 4 st' hs)
    _ _ _ hst2 with ⟨l2, hl2⟩
  have houter : ∀ (st : PackSt) (blk : Nat) (st' : PackSt),
      (cellList cfg.channels cfg.subbands.count).foldlM
        (fun st p =>
          if bits p > 0 then write_bits st cap (samples p.1 blk p.2) (bits p)
          else some st) st = some st' → ∃ l, st'.out = st.out ++ l := by
    intro st blk st' hs
    refine foldlM_pack_out _ ?_ _ _ _ hs
    intro s p s' hsp
    by_cases hb : bits p > 0
    · rw [if_pos hb] at hsp
      exact write_bits_out s cap _ _ s' hsp
    · rw [if_neg hb] at hsp
      cases hsp
      exact ⟨[], (List.append_nil _).symm⟩
  rcases foldlM_pack_out _ houter _ _ _ hst3 with ⟨l3, hl3⟩
  rcases packer_flush_out _ cap _ hst4 with ⟨l4, hl4⟩
  obtain ⟨L, hL⟩ :
      ∃ L, st4.out = SBC_SYNCWORD :: headerByte1 cfg :: cfg.bitpool :: 0 :: L := by
    refine ⟨l1 ++ l2 ++ l3 ++ l4, ?_⟩
    rw [hl4, hl3, hl2, hl1]
    simp [List.append_assoc]
  have hp := Option.some.inj h
  have hframe : frame = st4.out.set 3 (calc_crc st4.out) := (congrArg Prod.fst hp).symm
  subst hframe
  rw [hL]
  have hset : ∀ v : Nat,
      (SBC_SYNCWORD :: headerByte1 cfg :: cfg.bitpool :: 0 :: L).set 3 v =
        SBC_SYNCWORD :: headerByte1 cfg :: cfg.bitpool :: v :: L := fun v => rfl
  rw [hset]
  refine ⟨rfl, ?_, rfl, ?_⟩
  · exact congrArg some (headerByte1_eq cfg)
  · rw [calc_crc_set3 SBC_SYNCWORD (headerByte1 cfg) cfg.bitpool 0
      (calc_crc (SBC_SYNCWORD :: headerByte1 cfg :: cfg.bitpool :: 0 :: L)) L]
    rfl

/-- The Mono configuration used for the C5 witness. -/
def cfgC5 : SbcConfig := ⟨.freq44100, .mono, .blocks4, .sub4, .snr, 2⟩

/-- C5 witness: the header and CRC facts at a concrete packed frame. -/
theorem claim5_witness :
    ([156, 128, 2, 94, 0, 0] : List Nat).get? 0 = some SBC_SYNCWORD ∧
      ([156, 128, 2, 94, 0, 0] : List Nat).get? 1 =
        some (cfgC5.sampling_frequency.header_bits * 64 +
          cfgC5.block_length.header_bits * 16 + cfgC5.channel_mode.header_bits * 4 +
          cfgC5.allocation_method.header_bits * 2 + cfgC5.subbands.header_bits) ∧
      ([156, 128, 2, 94, 0, 0] : List Nat).get? 2 = some cfgC5.bitpool ∧
      ([156, 128, 2, 94, 0, 0] : List Nat).get? 3 =
        some (calc_crc [156, 128, 2, 94, 0, 0]) :=
  claim5_pack_header_crc (0, 0) cfgC5 0 (fun _ => 0) (fun _ => 0) (fun _ _ _ => 0) 512
    [156, 128, 2, 94, 0, 0] 6 (by decide)

/-- The bit-position scan underlying `u32_bit_length` computes the
binary logarithm plus one, clipped to the scanned width. -/
theorem bit_length_fold (v : Nat) (h1 : 1 ≤ v) :
    ∀ n, (List.range n).foldl (fun acc i => if v >>> i ≥ 1 then i + 1 else acc) 0 =
      min (Nat.log2 v + 1) n := by
  intro n
  induction n with
  | zero => simp
  | succ n ih =>
    rw [List.range_succ, List.foldl_append, ih]
    simp only [List.foldl_cons, List.foldl_nil]
    have hcond : (v >>> n ≥ 1) ↔ (n ≤ Nat.log2 v) := by
      rw [Nat.shiftRight_eq_div_pow, ge_iff_le,
        Nat.one_le_div_iff (pow_pos (by omega) n)]
      exact (Nat.le_log2 (by omega)).symm
    by_cases hc : v >>> n ≥ 1
    · rw [if_pos hc]
      have hle := hcond.mp hc
      omega
    · rw [if_neg hc]
      have hgt : ¬(n ≤ Nat.log2 v) := fun hh => hc (hcond.mpr hh)
      omega

/-- For nonzero `u32` values, `u32_bit_length` is `log2 + 1`. -/
theorem u32_bit_length_eq (v : Nat) (h1 : 1 ≤ v) (h2 : v < 2 ^ 32) :
    u32_bit_length v = Nat.log2 v + 1 := by
  have hlog : Nat.log2 v < 32 := by
    rw [Nat.log2_lt (by omega)]
    exact h2
  unfold u32_bit_length
  rw [bit_length_fold v h1 32]
  omega

/-- Characterisation of `calc_single_scale_factor` for magnitudes within
the quantizer's 16-bit range: it is the minimal `s ∈ [0,15]` with
`2^(s+1)` above the magnitude, and 0 for magnitude 0. -/
theorem calc_single_scale_factor_minimal (v : Nat) (hv : v ≤ 65535) :
    calc_single_scale_factor v ≤ 15 ∧ v < 2 ^ (calc_single_scale_factor v + 1) ∧
      (∀ t, t < calc_single_scale_factor v → 2 ^ (t + 1) ≤ v) ∧
      (v = 0 → calc_single_scale_factor v = 0) := by
  by_cases h0 : v = 0
  · subst h0
    refine ⟨by decide, by decide, ?_, fun _ => rfl⟩
    intro t ht
    simp [calc_single_scale_factor] at ht
  · have h1 : 1 ≤ v := by omega
    have h32 : v < 2 ^ 32 := by omega
    have hlog16 : Nat.log2 v < 16 := by
      rw [Nat.log2_lt h0]
      omega
    have hbl := u32_bit_length_eq v h1 h32
    have hbl32 : u32_bit_length v ≤ 32 := by
      unfold u32_bit_length
      rw [bit_length_fold v h1 32]
      omega
    have hsf : calc_single_scale_factor v = Nat.log2 v := by
      unfold calc_single_scale_factor u32_leading_zeros
      rw [if_neg h0]
      have hbn : 32 - (32 - u32_bit_length v) = Nat.log2 v + 1 := by omega
      rw [hbn]
      show (if (if Nat.log2 v + 1 > 1 then Nat.log2 v + 1 - 1 else 0) > 15 then 15
            else (if Nat.log2 v + 1 > 1 then Nat.log2 v + 1 - 1 else 0)) = Nat.log2 v
      by_cases hl : Nat.log2 v + 1 > 1
      · rw [if_pos hl, Nat.add_sub_cancel, if_neg (by omega)]
      · rw [if_neg hl, if_neg (by omega)]
        omega
    rw [hsf]
    refine ⟨by omega, Nat.lt_log2_self, ?_, fun hz => absurd hz h0⟩
    intro t ht
    calc 2 ^ (t + 1) ≤ 2 ^ Nat.log2 v := Nat.pow_le_pow_right (by omega) (by omega)
      _ ≤ v := Nat.log2_self_le h0

/-- C6: for every channel/subband of the active configuration whose
maximum absolute subband magnitude fits the quantizer's 16-bit range, the
scale factor computed by `calc_scale_factors` is the minimal `s ∈ [0,15]`
such that `2^(s+1)` exceeds that maximum magnitude, and a maximum of 0
yields scale factor 0. -/
theorem claim6_scale_factor_minimal (subbands : SubMat) (cfg : SbcConfig) (ch sb : Nat)
    (hch : ch < cfg.channels) (hsb : sb < cfg.subbands.count)
    (hM : maxAbsInSubband subbands ch sb cfg.block_length.count ≤ 65535) :
    calc_scale_factors subbands cfg (ch, sb) ≤ 15 ∧
      maxAbsInSubband subbands ch sb cfg.block_length.count <
        2 ^ (calc_scale_factors subbands cfg (ch, sb) + 1) ∧
      (∀ t, t < calc_scale_factors subbands cfg (ch, sb) →
        2 ^ (t + 1) ≤ maxAbsInSubband subbands ch sb cfg.block_length.count) ∧
      (maxAbsInSubband subbands ch sb cfg.block_length.count = 0 →
        calc_scale_factors subbands cfg (ch, sb) = 0) := by
  have hcc : calc_scale_factors subbands cfg (ch, sb) =
      calc_single_scale_factor
        (maxAbsInSubband subbands ch sb cfg.block_length.count) := by
    unfold calc_scale_factors
    rw [if_pos (show (ch, sb).1 < cfg.channels ∧ (ch, sb).2 < cfg.subbands.count from
      ⟨hch, hsb⟩)]
  rw [hcc]
  exact calc_single_scale_factor_minimal _ hM

/-- A constant subband matrix used by the C6 witness. -/
def subMatC6 : SubMat := fun _ _ _ => 100

/-- C6 witness: the minimality facts at a concrete matrix and cell. -/
theorem claim6_witness :
    calc_scale_factors subMatC6 cfgC3 (0, 0) ≤ 15 ∧
      maxAbsInSubband subMatC6 0 0 cfgC3.block_length.count <
        2 ^ (calc_scale_factors subMatC6 cfgC3 (0, 0) + 1) ∧
      (∀ t, t < calc_scale_factors subMatC6 cfgC3 (0, 0) →
        2 ^ (t + 1) ≤ maxAbsInSubband subMatC6 0 0 cfgC3.block_length.count) ∧
      (maxAbsInSubband subMatC6 0 0 cfgC3.block_length.count = 0 →
        calc_scale_factors subMatC6 cfgC3 (0, 0) = 0) :=
  claim6_scale_factor_minimal subMatC6 cfgC3 0 0 (by decide) (by decide) (by decide)

/-- C10: the claim fails on the code: at the valid configuration `cfgC10`,
with the filter history `stC10` (the claim quantifies over every
filter-history state) and an all-zero PCM frame of exactly the required
length and a 512-byte output buffer, the bit allocator emits an 18-bit
cell, and `quantize_sample`'s `bits <= 16` assert fires: `encode_frame`
panics instead of returning `Ok`. -/
theorem claim10_assert_fires :
    cfgC10.is_valid = true ∧
      pcmC10.length = cfgC10.samples_per_frame * cfgC10.channels ∧
      cfgC10.frame_size ≤ 512 ∧
      encode_frame cfgC10 ⟨stC10, 0, 0⟩ pcmC10 512 = .panic := by
  decide

/-- Folding a triple of running sums over a list equals the triple of the
mapped list sums. -/
theorem foldl_triple_sum {α : Type} (f g k : α → Int) (l : List α) :
    ∀ acc : Int × Int × Int,
      l.foldl (fun acc x => (acc.1 + f x, acc.2.1 + g x, acc.2.2 + k x)) acc =
        (acc.1 + (l.map f).sum, acc.2.1 + (l.map g).sum, acc.2.2 + (l.map k).sum) := by
  induction l with
  | nil => intro acc; simp
  | cons x t ih =>
    intro acc
    rw [List.foldl_cons, ih]
    dsimp only
    simp only [List.map_cons, List.sum_cons, Prod.mk.injEq]
    refine ⟨by ring, by ring, by ring⟩

/-- The correlation accumulators of one subband as explicit sums. -/
theorem joint_sums_map (mat : SubMat) (sb nblk : Nat) :
    joint_sums mat sb nblk =
      (((List.range nblk).map fun b => mat 0 b sb * mat 1 b sb).sum,
       ((List.range nblk).map fun b => mat 0 b sb * mat 0 b sb).sum,
       ((List.range nblk).map fun b => mat 1 b sb * mat 1 b sb).sum) := by
  unfold joint_sums
  rw [foldl_triple_sum (fun b => mat 0 b sb * mat 1 b sb)
    (fun b => mat 0 b sb * mat 0 b sb) (fun b => mat 1 b sb * mat 1 b sb)]
  simp

/-- A subband whose two channels agree on every active block and carry at
least one nonzero sample passes the `should_use_joint` test whenever the
two scale factors are equal. -/
theorem should_use_joint_identical (mat : SubMat) (sb nblk sf : Nat)
    (hid : ∀ b, b < nblk → mat 0 b sb = mat 1 b sb)
    (hnz : ∃ b, b < nblk ∧ mat 0 b sb ≠ 0) :
    should_use_joint mat sb nblk sf sf = true := by
  have hmaps1 : ((List.range nblk).map fun b => mat 0 b sb * mat 1 b sb) =
      ((List.range nblk).map fun b => mat 0 b sb * mat 0 b sb) := by
    apply List.map_congr_left
    intro b hb
    rw [← hid b (List.mem_range.mp hb)]
  have hmaps2 : ((List.range nblk).map fun b => mat 1 b sb * mat 1 b sb) =
      ((List.range nblk).map fun b => mat 0 b sb * mat 0 b sb) := by
    apply List.map_congr_left
    intro b hb
    rw [← hid b (List.mem_range.mp hb)]
  have hS : 0 < ((List.range nblk).map fun b => mat 0 b sb * mat 0 b sb).sum := by
    obtain ⟨b0, hb0, hz⟩ := hnz
    have hnonneg : ∀ x ∈ (List.range nblk).map fun b => mat 0 b sb * mat 0 b sb,
        (0 : Int) ≤ x := by
      intro x hx
      obtain ⟨b, _, hb⟩ := List.mem_map.mp hx
      rw [← hb]
      exact mul_self_nonneg _
    have hmem : mat 0 b0 sb * mat 0 b0 sb ∈
        (List.range nblk).map fun b => mat 0 b sb * mat 0 b sb :=
      List.mem_map.mpr ⟨b0, List.mem_range.mpr hb0, rfl⟩
    calc (0 : Int) < mat 0 b0 sb * mat 0 b0 sb := mul_self_pos.mpr hz
      _ ≤ _ := List.single_le_sum hnonneg _ hmem
  unfold should_use_joint
  rw [if_neg (lt_irrefl sf), Nat.sub_self, if_neg (show ¬((0 : Nat) > 4) by omega),
    joint_sums_map, hmaps1, hmaps2]
  dsimp only
  rw [if_neg]
  · exact decide_eq_true (le_refl _)
  · rintro (h | h) <;> omega

/-- A joint-stereo step never changes columns other than its own subband. -/
theorem jointStep_fst_ne (sfs : SfMat) (nsb nblk : Nat) (st : SubMat × Nat) (sb : Nat)
    (c b s : Nat) (hs : s ≠ sb) :
    (jointStep sfs nsb nblk st sb).1 c b s = st.1 c b s := by
  obtain ⟨mat, flags⟩ := st
  unfold jointStep
  dsimp only
  split_ifs with hj
  · dsimp only
    rw [if_neg (fun hcon => hs hcon.1)]
  · rfl

/-- One joint-stereo step either leaves the state unchanged, or it sets its
subband's flag bit and rewrites that subband's side channel to the halved
difference of the incoming channels. -/
theorem jointStep_cases (sfs : SfMat) (nsb nblk : Nat) (st : SubMat × Nat) (sb : Nat) :
    jointStep sfs nsb nblk st sb = st ∨
      ((jointStep sfs nsb nblk st sb).2 = st.2 ||| (1 <<< (nsb - 1 - sb)) ∧
        ∀ b, b < nblk →
          (jointStep sfs nsb nblk st sb).1 1 b sb = (st.1 0 b sb - st.1 1 b sb) >>> 1) := by
  obtain ⟨mat, flags⟩ := st
  by_cases hj : should_use_joint mat sb nblk (sfs (0, sb)) (sfs (1, sb)) = true
  · right
    constructor
    · show (jointStep sfs nsb nblk (mat, flags) sb).2 = flags ||| (1 <<< (nsb - 1 - sb))
      unfold jointStep
      dsimp only
      rw [if_pos hj]
    · intro b hb
      show (jointStep sfs nsb nblk (mat, flags) sb).1 1 b sb =
        (mat 0 b sb - mat 1 b sb) >>> 1
      unfold jointStep
      dsimp only
      rw [if_pos hj]
      dsimp only
      rw [if_pos ⟨rfl, hb⟩, if_neg (show ¬(1 : Nat) = 0 by omega), if_pos rfl]
  · left
    unfold jointStep
    dsimp only
    rw [if_neg hj]

/-- When the joint test passes, the step sets the subband's flag bit. -/
theorem jointStep_snd_of_joint (sfs : SfMat) (nsb nblk : Nat) (st : SubMat × Nat) (sb : Nat)
    (hj : should_use_joint st.1 sb nblk (sfs (0, sb)) (sfs (1, sb)) = true) :
    (jointStep sfs nsb nblk st sb).2 = st.2 ||| (1 <<< (nsb - 1 - sb)) := by
  obtain ⟨mat, flags⟩ := st
  dsimp only at hj
  unfold jointStep
  dsimp only
  rw [if_pos hj]

/-- Flag bits set earlier survive the remaining joint-stereo steps. -/
theorem jointFold_testBit_mono (sfs : SfMat) (nsb nblk : Nat) :
    ∀ (l : List Nat) (st : SubMat × Nat) (p : Nat),
      st.2.testBit p = true →
      ((l.foldl (jointStep sfs nsb nblk) st).2).testBit p = true := by
  intro l
  induction l with
  | nil => intro st p h; exact h
  | cons sb t ih =>
    intro st p h
    rw [List.foldl_cons]
    apply ih
    rcases jointStep_cases sfs nsb nblk st sb with hc | ⟨hflags, _⟩
    · rw [hc]
      exact h
    · rw [hflags, Nat.testBit_or, h, Bool.true_or]

/-- If some subband of the remaining work list has identical channels with
a nonzero sample (relative to the original matrix, still intact on the
listed columns) and equal scale factors, its flag bit is set after the
fold. -/
theorem jointFold_sets_bit (sfs : SfMat) (subbands : SubMat) (nsb nblk : Nat) :
    ∀ (l : List Nat), l.Nodup →
    ∀ (st : SubMat × Nat) (sb0 : Nat), sb0 ∈ l →
      (∀ s ∈ l, ∀ c b, st.1 c b s = subbands c b s) →
      (∀ b, b < nblk → subbands 0 b sb0 = subbands 1 b sb0) →
      (∃ b, b < nblk ∧ subbands 0 b sb0 ≠ 0) →
      sfs (0, sb0) = sfs (1, sb0) →
      ((l.foldl (jointStep sfs nsb nblk) st).2).testBit (nsb - 1 - sb0) = true := by
  intro l
  induction l with
  | nil =>
    intro _ st sb0 hmem
    exact absurd hmem (List.not_mem_nil _)
  | cons sb t ih =>
    intro hnd st sb0 hmem h1 hid0 hnz0 hsf0
    rw [List.foldl_cons]
    by_cases he : sb0 = sb
    · have hmem0 : sb0 ∈ sb :: t := List.mem_cons.mpr (Or.inl he)
      rw [← he]
      apply jointFold_testBit_mono
      have hju : should_use_joint st.1 sb0 nblk (sfs (0, sb0)) (sfs (1, sb0)) = true := by
        rw [hsf0]
        apply should_use_joint_identical
        · intro b hb
          rw [h1 sb0 hmem0 0 b, h1 sb0 hmem0 1 b]
          exact hid0 b hb
        · obtain ⟨b0, hb0, hz⟩ := hnz0
          refine ⟨b0, hb0, ?_⟩
          rw [h1 sb0 hmem0 0 b0]
          exact hz
      rw [jointStep_snd_of_joint sfs nsb nblk st sb0 hju, Nat.testBit_or,
        Nat.one_shiftLeft, Nat.testBit_two_pow_self, Bool.or_true]
    · have hmt : sb0 ∈ t := by
        rcases List.mem_cons.mp hmem with h | h
        · exact absurd h he
        · exact h
      refine ih hnd.of_cons (jointStep sfs nsb nblk st sb) sb0 hmt ?_ hid0 hnz0 hsf0
      intro s hst c b
      have hneq : s ≠ sb := fun hcon => (List.nodup_cons.mp hnd).1 (hcon ▸ hst)
      rw [jointStep_fst_ne sfs nsb nblk st sb c b s hneq]
      exact h1 s (List.mem_cons_of_mem _ hst) c b

/-- Invariant of the joint-stereo fold: when the matrix channels of the
original matrix coincide on active cells, every subband whose flag bit is
set in the final flags has all its active side-channel samples equal to
zero. -/
theorem jointFold_side_zero (sfs : SfMat) (subbands : SubMat) (nsb nblk : Nat)
    (hid : ∀ b, b < nblk → ∀ s, s < nsb → subbands 0 b s = subbands 1 b s) :
    ∀ (l : List Nat), l.Nodup → (∀ s ∈ l, s < nsb) →
    ∀ (st : SubMat × Nat),
      (∀ s ∈ l, ∀ c b, st.1 c b s = subbands c b s) →
      (∀ s, s < nsb → st.2.testBit (nsb - 1 - s) = true →
        ∀ b, b < nblk → st.1 1 b s = 0) →
      (∀ s ∈ l, st.2.testBit (nsb - 1 - s) = false) →
      ∀ s, s < nsb →
        ((l.foldl (jointStep sfs nsb nblk) st).2).testBit (nsb - 1 - s) = true →
        ∀ b, b < nblk → (l.foldl (jointStep sfs nsb nblk) st).1 1 b s = 0 := by
  intro l
  induction l with
  | nil =>
    intro _ _ st h1 h2 _ s hs hbit b hb
    exact h2 s hs hbit b hb
  | cons sb t ih =>
    intro hnd hlt st h1 h2 h3
    rw [List.foldl_cons]
    have hsbnsb : sb < nsb := hlt sb (List.mem_cons_self sb t)
    refine ih hnd.of_cons (fun x hx => hlt x (List.mem_cons_of_mem _ hx))
      (jointStep sfs nsb nblk st sb) ?_ ?_ ?_
    · intro s hst c b
      have hneq : s ≠ sb := fun hcon => (List.nodup_cons.mp hnd).1 (hcon ▸ hst)
      rw [jointStep_fst_ne sfs nsb nblk st sb c b s hneq]
      exact h1 s (List.mem_cons_of_mem _ hst) c b
    · intro s hs hbit b hb
      rcases jointStep_cases sfs nsb nblk st sb with hc | ⟨hflags, hside⟩
      · rw [hc] at hbit ⊢
        exact h2 s hs hbit b hb
      · by_cases hse : s = sb
        · rw [hse, hside b hb, h1 sb (List.mem_cons_self sb t) 0 b,
            h1 sb (List.mem_cons_self sb t) 1 b, hid b hb sb hsbnsb, sub_self]
          decide
        · rw [hflags, Nat.testBit_or, Nat.one_shiftLeft, Nat.testBit_two_pow,
            decide_eq_false (show ¬(nsb - 1 - sb = nsb - 1 - s) by omega),
            Bool.or_false] at hbit
          rw [jointStep_fst_ne sfs nsb nblk st sb 1 b s hse]
          exact h2 s hs hbit b hb
    · intro s hst
      have hneq : s ≠ sb := fun hcon => (List.nodup_cons.mp hnd).1 (hcon ▸ hst)
      have hsn : s < nsb := hlt s (List.mem_cons_of_mem _ hst)
      rcases jointStep_cases sfs nsb nblk st sb with hc | ⟨hflags, _⟩
      · rw [hc]
        exact h3 s (List.mem_cons_of_mem _ hst)
      · rw [hflags, Nat.testBit_or, Nat.one_shiftLeft, Nat.testBit_two_pow,
          h3 s (List.mem_cons_of_mem _ hst), Bool.false_or]
        exact decide_eq_false (by omega)

/-- C8: under JointStereo, for every subband matrix whose two channels
agree on every active cell, with equal per-channel scale factors, sample
magnitudes within `2^29` (keeping the Rust `i64` correlation sums exact),
and at least one nonzero sample in a joinable subband,
`joint_stereo_process` returns nonzero join flags, and every subband whose
join flag is set has all its side-channel (channel 1) samples equal to
zero after the mid/side transform. -/
theorem claim8_joint_identical (subbands : SubMat) (sfs : SfMat) (cfg : SbcConfig)
    (hmode : cfg.channel_mode = ChannelMode.jointStereo)
    (hid : ∀ b, b < cfg.block_length.count → ∀ s, s < cfg.subbands.count →
      subbands 0 b s = subbands 1 b s)
    (hsf : ∀ s, s < cfg.subbands.count → sfs (0, s) = sfs (1, s))
    (_hbound : ∀ c, c < 2 → ∀ b, b < cfg.block_length.count →
      ∀ s, s < cfg.subbands.count → (subbands c b s).natAbs ≤ 2 ^ 29)
    (hnz : ∃ sb, sb < (if cfg.subbands.count = 8 then cfg.subbands.count - 1
        else cfg.subbands.count) ∧
      ∃ b, b < cfg.block_length.count ∧ subbands 0 b sb ≠ 0) :
    (joint_stereo_process subbands sfs cfg).2 ≠ 0 ∧
      ∀ s, s < cfg.subbands.count →
        ((joint_stereo_process subbands sfs cfg).2).testBit
          (cfg.subbands.count - 1 - s) = true →
        ∀ b, b < cfg.block_length.count →
          (joint_stereo_process subbands sfs cfg).1 1 b s = 0 := by
  have hjl : joint_stereo_process subbands sfs cfg =
      (List.range (if cfg.subbands.count = 8 then cfg.subbands.count - 1
        else cfg.subbands.count)).foldl
        (jointStep sfs cfg.subbands.count cfg.block_length.count) (subbands, 0) := by
    unfold joint_stereo_process
    rw [if_neg (fun hne => hne hmode)]
  rw [hjl]
  have hle : (if cfg.subbands.count = 8 then cfg.subbands.count - 1
      else cfg.subbands.count) ≤ cfg.subbands.count := by
    split <;> omega
  constructor
  · obtain ⟨sb0, hsb0, hnzb⟩ := hnz
    have hsb0n : sb0 < cfg.subbands.count := lt_of_lt_of_le hsb0 hle
    intro h0
    have hbit := jointFold_sets_bit sfs subbands cfg.subbands.count cfg.block_length.count
      (List.range (if cfg.subbands.count = 8 then cfg.subbands.count - 1
        else cfg.subbands.count))
      (List.nodup_range _) (subbands, 0) sb0 (List.mem_range.mpr hsb0)
      (fun _ _ _ _ => rfl) (fun b hb => hid b hb sb0 hsb0n) hnzb (hsf sb0 hsb0n)
    rw [h0, Nat.zero_testBit] at hbit
    exact absurd hbit (by decide)
  · intro s hs hbit b hb
    exact jointFold_side_zero sfs subbands cfg.subbands.count cfg.block_length.count hid
      (List.range (if cfg.subbands.count = 8 then cfg.subbands.count - 1
        else cfg.subbands.count))
      (List.nodup_range _) (fun x hx => lt_of_lt_of_le (List.mem_range.mp hx) hle)
      (subbands, 0) (fun _ _ _ _ => rfl)
      (fun x _ hbx => absurd hbx (by simp))
      (fun x _ => Nat.zero_testBit _) s hs hbit b hb

/-- C8 configuration: 44.1 kHz joint stereo, 4 blocks, 4 subbands. -/
def cfgC8 : SbcConfig := ⟨.freq44100, .jointStereo, .blocks4, .sub4, .loudness, 30⟩

/-- The all-zero subband matrix. -/
def subMatZeroC8 : SubMat := fun _ _ _ => 0

/-- The all-zero scale factors. -/
def sfsZeroC8 : SfMat := fun _ => 0

/-- C8 counterexample to the unqualified claim: the all-zero matrix has
identical channels (with equal scale factors) in JointStereo mode, yet
`should_use_joint` rejects every subband as silent and the join flags are
zero. -/
theorem claim8_counterexample :
    cfgC8.channel_mode = ChannelMode.jointStereo ∧
      (∀ b, b < cfgC8.block_length.count → ∀ s, s < cfgC8.subbands.count →
        subMatZeroC8 0 b s = subMatZeroC8 1 b s) ∧
      (∀ s, s < cfgC8.subbands.count → sfsZeroC8 (0, s) = sfsZeroC8 (1, s)) ∧
      (joint_stereo_process subMatZeroC8 sfsZeroC8 cfgC8).2 = 0 := by
  decide

/-- Constant identical-channel subband matrix for the C8 witness. -/
def subMatC8 : SubMat := fun _ _ _ => 100

/-- Constant scale factors for the C8 witness. -/
def sfsC8 : SfMat := fun _ => 4

/-- C8 witness: at the constant identical matrix the joint-stereo facts
hold with every hypothesis discharged concretely. -/
theorem claim8_witness :
    (joint_stereo_process subMatC8 sfsC8 cfgC8).2 ≠ 0 ∧
      ∀ s, s < cfgC8.subbands.count →
        ((joint_stereo_process subMatC8 sfsC8 cfgC8).2).testBit
          (cfgC8.subbands.count - 1 - s) = true →
        ∀ b, b < cfgC8.block_length.count →
          (joint_stereo_process subMatC8 sfsC8 cfgC8).1 1 b s = 0 :=
  claim8_joint_identical subMatC8 sfsC8 cfgC8 rfl (by decide) (fun _ _ => rfl)
    (by decide) ⟨0, by decide, 0, by decide, by decide⟩

end SBC
